import Mathlib

/-!
Verification of the voice-chess move-legality engine and voice-command
resolver (ChessBoard component: notation codec, per-piece legality rules,
path clearance, voice resolver, move executor; ChessGame: history append
and turn flip).

The board is modelled as a total function from integer coordinates to an
optional piece, mirroring the 8x8 JS array of `ChessPiece | null`; an
out-of-range read yields `none` (the JS array yields `undefined`, equally
falsy at every guarded read site).  Machine numbers are `Int`.  The
unbounded `while` loop of `isPathClear` is modelled with explicit fuel
(8 suffices on an 8x8 board; fuel exhaustion returns `none`, marking a
run the JS loop would not complete within the board).
-/

namespace VoiceChess

inductive Color where
  | white
  | black
deriving DecidableEq, Repr

/-- handleMove (ChessGame): setCurrentPlayer(prev => prev === "white" ? "black" : "white"). -/
def Color.flip : Color → Color
  | .white => .black
  | .black => .white

inductive PieceKind where
  | pawn
  | rook
  | knight
  | bishop
  | queen
  | king
deriving DecidableEq, Repr

/-- ChessPiece of the source: kind (TS field `type`, a string drawn from the
six chess kinds), color, and the display symbol. -/
structure ChessPiece where
  type : PieceKind
  color : Color
  symbol : Char
deriving DecidableEq, Repr

/-- The 8x8 grid of `ChessPiece | null`, as a total function; reads outside
the grid give `none`. -/
def Board : Type := Int → Int → Option ChessPiece

/-- A { row, col } pair as the source passes square coordinates around. -/
structure Pos where
  row : Int
  col : Int
deriving DecidableEq, Repr

def pieceKindName : PieceKind → String
  | .pawn => "pawn"
  | .rook => "rook"
  | .knight => "knight"
  | .bishop => "bishop"
  | .queen => "queen"
  | .king => "king"

def majorKindAt (c : Int) : PieceKind :=
  if c = 0 ∨ c = 7 then .rook
  else if c = 1 ∨ c = 6 then .knight
  else if c = 2 ∨ c = 5 then .bishop
  else if c = 3 then .queen
  else .king

def majorSymbol : PieceKind → Color → Char
  | .rook, .black => '♜'
  | .knight, .black => '♞'
  | .bishop, .black => '♝'
  | .queen, .black => '♛'
  | .king, .black => '♚'
  | .pawn, .black => '♟'
  | .rook, .white => '♖'
  | .knight, .white => '♘'
  | .bishop, .white => '♗'
  | .queen, .white => '♕'
  | .king, .white => '♔'
  | .pawn, .white => '♙'

/-- initialBoard of the source: row 0 black major pieces, row 1 black pawns,
rows 2-5 empty, row 6 white pawns, row 7 white major pieces. -/
def initialBoard : Board := fun r c =>
  if c < 0 ∨ 7 < c then none
  else if r = 0 then some ⟨majorKindAt c, .black, majorSymbol (majorKindAt c) .black⟩
  else if r = 1 then some ⟨.pawn, .black, '♟'⟩
  else if r = 6 then some ⟨.pawn, .white, '♙'⟩
  else if r = 7 then some ⟨majorKindAt c, .white, majorSymbol (majorKindAt c) .white⟩
  else none

/-- Functional update of one square (the JS code copies the array and
assigns one cell). -/
def setSq (b : Board) (r c : Int) (v : Option ChessPiece) : Board :=
  fun r2 c2 => if r2 = r ∧ c2 = c then v else b r2 c2

/-- The string constant "abcdefgh" of the notation codec. -/
def filesStr : List Char := ['a', 'b', 'c', 'd', 'e', 'f', 'g', 'h']

/-- The string constant "87654321" of the notation codec. -/
def ranksStr : List Char := ['8', '7', '6', '5', '4', '3', '2', '1']

/-- JS string indexing s[i]: a char when 0 <= i < length, else undefined. -/
def charAt (l : List Char) (i : Int) : Option Char :=
  if i < 0 then none else l[i.toNat]?

/-- getSquareNotation(row, col) = files[col] + ranks[row].  For in-range
coordinates this is the two-character algebraic name; out of range the JS
concatenation would glue the string "undefined" in - modelled as []. -/
def getSquareNotation (row col : Int) : List Char :=
  match charAt filesStr col, charAt ranksStr row with
  | some f, some r => [f, r]
  | _, _ => []

/-- JS String.indexOf for a single character: the first index, or -1. -/
def indexOfChar (l : List Char) (c : Char) : Int :=
  match l with
  | [] => -1
  | x :: rest =>
    if x = c then 0
    else
      let r := indexOfChar rest c
      if r = -1 then -1 else r + 1

/-- parseSquareNotation of the source: null when length is not 2; when a
file or rank character is not found it returns the sentinel pair
{ row: -1, col: -1 } (not null); otherwise { row, col }. -/
def parseSquareNotation : List Char → Option Pos
  | [a, b] =>
    let col := indexOfChar filesStr a
    let row := indexOfChar ranksStr b
    if col = -1 ∨ row = -1 then some ⟨-1, -1⟩ else some ⟨row, col⟩
  | _ => none

/-- The step-direction computation of isPathClear:
toX === fromX ? 0 : (toX > fromX ? 1 : -1). -/
def stepDir (a b : Int) : Int :=
  if b = a then 0 else if b > a then 1 else -1

/-- The while loop of isPathClear, with explicit fuel: starting from the
current square, stop with true on reaching the destination, with false on
the first occupied square, and step by (rowStep, colStep) otherwise.
Fuel exhaustion returns none (a run the JS loop would not complete while
staying on the board). -/
def pathLoop (b : Board) (toRow toCol rowStep colStep : Int) :
    Nat → Int → Int → Option Bool
  | 0, _, _ => none
  | Nat.succ fuel, curRow, curCol =>
    if curRow = toRow ∧ curCol = toCol then some true
    else if (b curRow curCol).isSome then some false
    else pathLoop b toRow toCol rowStep colStep fuel (curRow + rowStep) (curCol + colStep)

/-- isPathClear of the source; fuel 8 covers every aligned pair of squares
of the 8x8 board (at most 7 loop iterations). -/
def isPathClear (b : Board) (fromRow fromCol toRow toCol : Int) : Option Bool :=
  let rowStep := stepDir fromRow toRow
  let colStep := stepDir fromCol toCol
  pathLoop b toRow toCol rowStep colStep 8 (fromRow + rowStep) (fromCol + colStep)

/-- direction = piece.color === "white" ? -1 : 1. -/
def pawnDirection (c : Color) : Int :=
  if c = .white then -1 else 1

/-- startRow = piece.color === "white" ? 6 : 1. -/
def pawnStartRow (c : Color) : Int :=
  if c = .white then 6 else 1

/-- isValidPawnMove of the source: single advance, double advance from the
start row, or diagonal capture. -/
def isValidPawnMove (b : Board) (fromRow fromCol toRow toCol : Int)
    (piece : ChessPiece) : Bool :=
  let direction := pawnDirection piece.color
  let startRow := pawnStartRow piece.color
  let targetPiece := b toRow toCol
  if fromCol = toCol then
    if toRow = fromRow + direction ∧ targetPiece = none then true
    else if fromRow = startRow ∧ toRow = fromRow + 2 * direction ∧
        targetPiece = none ∧ b (fromRow + direction) fromCol = none then true
    else false
  else if (fromCol - toCol).natAbs = 1 ∧ toRow = fromRow + direction then
    match targetPiece with
    | some t => decide (t.color ≠ piece.color)
    | none => false
  else false

/-- isValidRookMove: orthogonal lines only, then path clearance. -/
def isValidRookMove (b : Board) (fromRow fromCol toRow toCol : Int) : Option Bool :=
  if fromRow ≠ toRow ∧ fromCol ≠ toCol then some false
  else isPathClear b fromRow fromCol toRow toCol

/-- isValidBishopMove: diagonal lines only, then path clearance. -/
def isValidBishopMove (b : Board) (fromRow fromCol toRow toCol : Int) : Option Bool :=
  if (fromRow - toRow).natAbs ≠ (fromCol - toCol).natAbs then some false
  else isPathClear b fromRow fromCol toRow toCol

/-- isValidKnightMove: L-shape, 2+1 or 1+2. -/
def isValidKnightMove (fromRow fromCol toRow toCol : Int) : Bool :=
  let rowDiff := (fromRow - toRow).natAbs
  let colDiff := (fromCol - toCol).natAbs
  decide ((rowDiff = 2 ∧ colDiff = 1) ∨ (rowDiff = 1 ∧ colDiff = 2))

/-- isValidQueenMove: isValidRookMove(...) || isValidBishopMove(...),
with the left disjunct evaluated first as in JS. -/
def isValidQueenMove (b : Board) (fromRow fromCol toRow toCol : Int) : Option Bool :=
  match isValidRookMove b fromRow fromCol toRow toCol with
  | none => none
  | some true => some true
  | some false => isValidBishopMove b fromRow fromCol toRow toCol

/-- isValidKingMove: one square in any direction. -/
def isValidKingMove (fromRow fromCol toRow toCol : Int) : Bool :=
  let rowDiff := (fromRow - toRow).natAbs
  let colDiff := (fromCol - toCol).natAbs
  decide (rowDiff ≤ 1 ∧ colDiff ≤ 1 ∧ (rowDiff > 0 ∨ colDiff > 0))

/-- isValidMove of the source, with its checks in order: destination on the
grid, from different from to, origin occupied, origin color equal to the
current player, no self-capture, then the per-kind geometry rule. -/
def isValidMove (b : Board) (currentPlayer : Color)
    (fromRow fromCol toRow toCol : Int) : Option Bool :=
  if toRow < 0 ∨ toRow > 7 ∨ toCol < 0 ∨ toCol > 7 then some false
  else if fromRow = toRow ∧ fromCol = toCol then some false
  else
    match b fromRow fromCol with
    | none => some false
    | some piece =>
      if piece.color ≠ currentPlayer then some false
      else if (match b toRow toCol with
               | some t => t.color == piece.color
               | none => false) then some false
      else
        match piece.type with
        | .pawn => some (isValidPawnMove b fromRow fromCol toRow toCol piece)
        | .rook => isValidRookMove b fromRow fromCol toRow toCol
        | .bishop => isValidBishopMove b fromRow fromCol toRow toCol
        | .knight => some (isValidKnightMove fromRow fromCol toRow toCol)
        | .queen => isValidQueenMove b fromRow fromCol toRow toCol
        | .king => some (isValidKingMove fromRow fromCol toRow toCol)

/-- A ChessMove record as the source builds it (the Date timestamp is not
modelled; `notation` of the source is `moveNotation` here). -/
structure ChessMove where
  fromSq : List Char
  toSq : List Char
  piece : String
  moveNotation : List Char
deriving DecidableEq, Repr

/-- executeMove of the source: copy the board, write the origin piece to the
destination, empty the origin, and build the move record
`from`-`to` with the piece kind (or "unknown" on an empty origin). -/
def executeMove (b : Board) (fromRow fromCol toRow toCol : Int) :
    Board × ChessMove :=
  let piece := b fromRow fromCol
  let b1 := setSq b toRow toCol piece
  let b2 := setSq b1 fromRow fromCol none
  (b2,
    { fromSq := getSquareNotation fromRow fromCol
      toSq := getSquareNotation toRow toCol
      piece := match piece with
               | some p => pieceKindName p.type
               | none => "unknown"
      moveNotation := getSquareNotation fromRow fromCol ++ '-' :: getSquareNotation toRow toCol })

/-- The state the accepted-move pipeline touches: the board (ChessBoard
component state) plus the current player and move history (ChessGame
component state). -/
structure GameState where
  board : Board
  currentPlayer : Color
  moveHistory : List ChessMove

/-- One accepted move end to end: executeMove updates the board and emits
the record through onMove; handleMove of ChessGame appends the record to
the history and flips currentPlayer. -/
def applyAcceptedMove (st : GameState) (fromRow fromCol toRow toCol : Int) :
    GameState :=
  let r := executeMove st.board fromRow fromCol toRow toCol
  { board := r.1
    currentPlayer := st.currentPlayer.flip
    moveHistory := st.moveHistory ++ [r.2] }

/-- The game state right after game start. -/
def initGameState : GameState :=
  { board := initialBoard, currentPlayer := .white, moveHistory := [] }

/-- The click path of handleSquareClick with a piece already selected:
execute exactly when isValidMove accepts. -/
def clickMoveStep (st : GameState) (selRow selCol row col : Int) :
    Option GameState :=
  if isValidMove st.board st.currentPlayer selRow selCol row col = some true then
    some (applyAcceptedMove st selRow selCol row col)
  else none

/-- JS Char.toLowerCase restricted to ASCII letters (the only characters
the resolver's square alphabet can be produced from). -/
def toLowerList (cs : List Char) : List Char := cs.map Char.toLower

def isWhitespaceChar (c : Char) : Bool :=
  c = ' ' || c = '\t' || c = '\n' || c = '\r'

/-- JS String.trim: whitespace stripped from both ends. -/
def trimList (cs : List Char) : List Char :=
  ((cs.dropWhile isWhitespaceChar).reverse.dropWhile isWhitespaceChar).reverse

/-- command.toLowerCase().trim() of processVoiceCommand. -/
def normalizeCmd (cs : List Char) : List Char := trimList (toLowerList cs)

/-- The character class [a-h] of the resolver's regexes. -/
def isFileChar (c : Char) : Bool := 'a' ≤ c && c ≤ 'h'

/-- The character class [1-8] of the resolver's regexes. -/
def isRankChar (c : Char) : Bool := '1' ≤ c && c ≤ '8'

/-- The test of the anchored regex [a-h][1-8] over the whole string. -/
def isBareSquare : List Char → Bool
  | [a, b] => isFileChar a && isRankChar b
  | _ => false

/-- A JS line terminator, which the dot of a regex does not match. -/
def isLineTerm (c : Char) : Bool :=
  c = '\n' || c = '\r' || c = '\u2028' || c = '\u2029'

/-- The lazy tail of the pair regex: the earliest square token reachable
from here without the dot crossing a line terminator. -/
def findToTok : List Char → Option (Char × Char)
  | a :: b :: rest =>
    if isFileChar a && isRankChar b then some (a, b)
    else if isLineTerm a then none
    else findToTok (b :: rest)
  | _ => none

/-- Leftmost match of the pair regex ([a-h][1-8]).*?([a-h][1-8]): the first
start position whose square token is followed (reachably) by a second one,
with the lazy dot-star taking the earliest second token. -/
def findMatch : List Char → Option ((Char × Char) × (Char × Char))
  | a :: b :: rest =>
    if isFileChar a && isRankChar b then
      match findToTok rest with
      | some t => some ((a, b), t)
      | none => findMatch (b :: rest)
    else findMatch (b :: rest)
  | _ => none

/-- The 64 squares in the row-major order of the resolver's nested scan
loops: row 0 to 7, and within a row column 0 to 7. -/
def squaresList : List Pos :=
  ((List.range 8).map fun r =>
    (List.range 8).map fun c => Pos.mk (r : Int) (c : Int)).flatten

/-- The body of the resolver's scan for a bare destination: the first
square in the given order holding a piece of the current player from which
isValidMove accepts the target; returns its algebraic name. -/
def scanFromSquare (b : Board) (player : Color) (toSquare : List Char) :
    List Pos → Option (List Char)
  | [] => none
  | p :: rest =>
    match b p.row p.col with
    | some piece =>
      if piece.color = player then
        match parseSquareNotation toSquare with
        | some toPos =>
          if isValidMove b player p.row p.col toPos.row toPos.col = some true then
            some (getSquareNotation p.row p.col)
          else scanFromSquare b player toSquare rest
        | none => scanFromSquare b player toSquare rest
      else scanFromSquare b player toSquare rest
    | none => scanFromSquare b player toSquare rest

/-- The square-extraction phase of processVoiceCommand: the optional
fromSquare and toSquare strings after the bare-destination branch or the
from/to pair regex. -/
def extractSquares (b : Board) (player : Color) (trimmed : List Char) :
    Option (List Char) × Option (List Char) :=
  if isBareSquare trimmed then
    (scanFromSquare b player trimmed squaresList, some trimmed)
  else
    match findMatch trimmed with
    | some (f, t) => (some [f.1, f.2], some [t.1, t.2])
    | none => (none, none)

/-- processVoiceCommand of the source, as the move it executes (if any):
normalize the command, extract candidate squares, parse both, and execute
exactly when isValidMove accepts the pair.  `none` means no call to
executeMove happened. -/
def processVoiceCommand (b : Board) (player : Color) (gameStarted : Bool)
    (cmd : List Char) : Option (Pos × Pos) :=
  if gameStarted then
    let trimmed := normalizeCmd cmd
    match extractSquares b player trimmed with
    | (some fs, some ts) =>
      match parseSquareNotation fs, parseSquareNotation ts with
      | some fromPos, some toPos =>
        if isValidMove b player fromPos.row fromPos.col toPos.row toPos.col = some true then
          some (fromPos, toPos)
        else none
      | _, _ => none
    | _ => none
  else none

/-- The voice path end to end: the state after processVoiceCommand, which
executes the resolved move or leaves the state untouched. -/
def voiceStep (st : GameState) (gameStarted : Bool) (cmd : List Char) :
    GameState :=
  match processVoiceCommand st.board st.currentPlayer gameStarted cmd with
  | some (fp, tp) => applyAcceptedMove st fp.row fp.col tp.row tp.col
  | none => st

/-- The squares the isPathClear loop visits: n squares from (r, c) stepping
by (dr, dc). -/
def stepList (dr dc : Int) : Nat → Int → Int → List Pos
  | 0, _, _ => []
  | Nat.succ n, r, c => ⟨r, c⟩ :: stepList dr dc n (r + dr) (c + dc)

/-- The squares strictly between origin and destination along the unit
direction the isPathClear loop walks. -/
def pathBetween (fromRow fromCol toRow toCol : Int) : List Pos :=
  let dr := stepDir fromRow toRow
  let dc := stepDir fromCol toCol
  let d := max (toRow - fromRow).natAbs (toCol - fromCol).natAbs
  stepList dr dc (d - 1) (fromRow + dr) (fromCol + dc)

/-- Whether a coordinate pair lies on the 8x8 grid. -/
def posInGrid (p : Pos) : Bool :=
  decide (0 ≤ p.row ∧ p.row ≤ 7 ∧ 0 ≤ p.col ∧ p.col ≤ 7)

/-- All (from, to) pairs isValidMove accepts, enumerated over the 64x64
candidates in row-major order (the order of calculateValidMoves probing). -/
def legalMovesList (b : Board) (player : Color) : List (Pos × Pos) :=
  (squaresList.map fun p =>
    squaresList.filterMap fun q =>
      if isValidMove b player p.row p.col q.row q.col = some true then
        some (p, q)
      else none).flatten

/-- The acceptance test of the bare-destination voice scan at one square:
the square holds a piece of the current player and the move to the target
is accepted. -/
def voicePred (b : Board) (player : Color) (tp : Pos) (p : Pos) : Bool :=
  match b p.row p.col with
  | some piece =>
    piece.color == player &&
      (match isValidMove b player p.row p.col tp.row tp.col with
       | some v => v
       | none => false)
  | none => false

/-- Whether the text holds any two consecutive characters forming an
algebraic square token (the pattern both resolver regexes look for). -/
def hasSquareTok : List Char → Bool
  | a :: b :: rest => (isFileChar a && isRankChar b) || hasSquareTok (b :: rest)
  | _ => false

/-- The 20 legal opening moves of the initial position for white, in the
row-major enumeration order: for each of the eight pawns the double then
the single advance, then the four knight moves. -/
def openingMoves20 : List (Pos × Pos) :=
  [(⟨6, 0⟩, ⟨4, 0⟩), (⟨6, 0⟩, ⟨5, 0⟩), (⟨6, 1⟩, ⟨4, 1⟩), (⟨6, 1⟩, ⟨5, 1⟩),
   (⟨6, 2⟩, ⟨4, 2⟩), (⟨6, 2⟩, ⟨5, 2⟩), (⟨6, 3⟩, ⟨4, 3⟩), (⟨6, 3⟩, ⟨5, 3⟩),
   (⟨6, 4⟩, ⟨4, 4⟩), (⟨6, 4⟩, ⟨5, 4⟩), (⟨6, 5⟩, ⟨4, 5⟩), (⟨6, 5⟩, ⟨5, 5⟩),
   (⟨6, 6⟩, ⟨4, 6⟩), (⟨6, 6⟩, ⟨5, 6⟩), (⟨6, 7⟩, ⟨4, 7⟩), (⟨6, 7⟩, ⟨5, 7⟩),
   (⟨7, 1⟩, ⟨5, 0⟩), (⟨7, 1⟩, ⟨5, 2⟩), (⟨7, 6⟩, ⟨5, 5⟩), (⟨7, 6⟩, ⟨5, 7⟩)]

/-- A board holding a single white rook on a1, used to exercise the sliding
path property on a clear file. -/
def rookTestBoard : Board :=
  setSq (fun _ _ => none) 7 0 (some ⟨.rook, .white, '♖'⟩)

/-! Helper lemmas about the path-clearance loop. -/

theorem stepDir_eq_zero_iff (a b : Int) : stepDir a b = 0 ↔ b = a := by
  unfold stepDir
  split_ifs with h1 h2 <;> simp [h1]

theorem stepDir_cases (a b : Int) :
    stepDir a b = 0 ∨ stepDir a b = 1 ∨ stepDir a b = -1 := by
  unfold stepDir
  split_ifs <;> simp

theorem stepDir_spec (a b : Int) :
    b = a + ((b - a).natAbs : Int) * stepDir a b := by
  unfold stepDir
  split_ifs with h1 h2
  · omega
  · rw [mul_one]; omega
  · rw [mul_neg_one]; omega

theorem stepList_length (dr dc : Int) :
    ∀ (n : Nat) (r c : Int), (stepList dr dc n r c).length = n := by
  intro n
  induction n with
  | zero => intro r c; rfl
  | succ n ih => intro r c; simp [stepList, ih]

theorem mem_stepList (dr dc : Int) :
    ∀ (n : Nat) (r c : Int) (p : Pos),
      p ∈ stepList dr dc n r c ↔
        ∃ k : Nat, k < n ∧ p.row = r + (k : Int) * dr ∧ p.col = c + (k : Int) * dc := by
  intro n
  induction n with
  | zero => intro r c p; simp [stepList]
  | succ n ih =>
    intro r c p
    simp only [stepList, List.mem_cons, ih]
    constructor
    · rintro (h | ⟨k, hk, hr, hc⟩)
      · refine ⟨0, Nat.succ_pos n, ?_, ?_⟩ <;> simp [h]
      · refine ⟨k + 1, by omega, ?_, ?_⟩
        · rw [hr]; push_cast; ring
        · rw [hc]; push_cast; ring
    · rintro ⟨k, hk, hr, hc⟩
      match k with
      | 0 =>
        left
        cases p
        simp only [Nat.cast_zero, zero_mul, add_zero] at hr hc
        rw [hr, hc]
      | Nat.succ k =>
        right
        refine ⟨k, by omega, ?_, ?_⟩
        · rw [hr]; push_cast; ring
        · rw [hc]; push_cast; ring

theorem pathLoop_eq (b : Board) (dr dc : Int) (hne : ¬(dr = 0 ∧ dc = 0)) :
    ∀ (d fuel : Nat) (r c : Int), d < fuel →
      pathLoop b (r + (d : Int) * dr) (c + (d : Int) * dc) dr dc fuel r c =
        some ((stepList dr dc d r c).all fun p => (b p.row p.col).isNone) := by
  intro d
  induction d with
  | zero =>
    intro fuel r c hf
    match fuel, hf with
    | Nat.succ f, _ => simp [pathLoop, stepList]
  | succ d ih =>
    intro fuel r c hf
    match fuel, hf with
    | Nat.succ f, hf =>
      have hd : d < f := Nat.lt_of_succ_lt_succ hf
      have hcast : ((d + 1 : Nat) : Int) ≠ 0 := by exact_mod_cast Nat.succ_ne_zero d
      have hcur : ¬(r = r + ((d + 1 : Nat) : Int) * dr ∧
          c = c + ((d + 1 : Nat) : Int) * dc) := by
        rintro ⟨h1, h2⟩
        apply hne
        constructor
        · have hz : ((d + 1 : Nat) : Int) * dr = 0 := by linarith
          rcases mul_eq_zero.mp hz with h | h
          · exact absurd h hcast
          · exact h
        · have hz : ((d + 1 : Nat) : Int) * dc = 0 := by linarith
          rcases mul_eq_zero.mp hz with h | h
          · exact absurd h hcast
          · exact h
      rw [pathLoop, if_neg hcur]
      by_cases hb : (b r c).isSome = true
      · rw [if_pos hb]
        obtain ⟨v, hval⟩ := Option.isSome_iff_exists.mp hb
        have hall : (stepList dr dc (d + 1) r c).all
            (fun p => (b p.row p.col).isNone) = false := by
          show ((⟨r, c⟩ :: stepList dr dc d (r + dr) (c + dc) : List Pos).all
            fun p => (b p.row p.col).isNone) = false
          rw [List.all_cons]
          simp [hval]
        rw [hall]
      · rw [if_neg hb]
        have e1 : r + ((d + 1 : Nat) : Int) * dr = (r + dr) + (d : Int) * dr := by
          push_cast; ring
        have e2 : c + ((d + 1 : Nat) : Int) * dc = (c + dc) + (d : Int) * dc := by
          push_cast; ring
        rw [e1, e2, ih f (r + dr) (c + dc) hd]
        have hnone : (b r c).isNone = true := by
          cases hval : b r c
          · rfl
          · rw [hval] at hb; cases hb rfl
        simp [stepList, List.all_cons, hnone]

/-- Alignment data: on a straight or diagonal pair of distinct squares the
destination is exactly d unit steps from the origin, d the maximum
coordinate distance. -/
theorem align_data (fr fc tr tc : Int)
    (hAl : fr = tr ∨ fc = tc ∨ (tr - fr).natAbs = (tc - fc).natAbs)
    (hne : ¬(fr = tr ∧ fc = tc)) :
    tr = fr + ((max (tr - fr).natAbs (tc - fc).natAbs : Nat) : Int) * stepDir fr tr ∧
    tc = fc + ((max (tr - fr).natAbs (tc - fc).natAbs : Nat) : Int) * stepDir fc tc ∧
    1 ≤ max (tr - fr).natAbs (tc - fc).natAbs := by
  refine ⟨?_, ?_, ?_⟩
  · by_cases hfr : fr = tr
    · have hz : stepDir fr tr = 0 := (stepDir_eq_zero_iff fr tr).mpr hfr.symm
      rw [hz, mul_zero, add_zero]
      exact hfr.symm
    · have hdval : max (tr - fr).natAbs (tc - fc).natAbs = (tr - fr).natAbs := by
        rcases hAl with h | h | h
        · exact absurd h hfr
        · have : (tc - fc).natAbs = 0 := by omega
          omega
        · omega
      rw [hdval]
      exact stepDir_spec fr tr
  · by_cases hfc : fc = tc
    · have hz : stepDir fc tc = 0 := (stepDir_eq_zero_iff fc tc).mpr hfc.symm
      rw [hz, mul_zero, add_zero]
      exact hfc.symm
    · have hdval : max (tr - fr).natAbs (tc - fc).natAbs = (tc - fc).natAbs := by
        rcases hAl with h | h | h
        · have : (tr - fr).natAbs = 0 := by omega
          omega
        · exact absurd h hfc
        · omega
      rw [hdval]
      exact stepDir_spec fc tc
  · rcases not_and_or.mp hne with h | h <;> omega

/-- On an aligned pair of distinct squares at coordinate distance at most 7,
isPathClear terminates and decides emptiness of exactly the strictly-between
squares. -/
theorem isPathClear_eq_between (b : Board) (fr fc tr tc : Int)
    (hAl : fr = tr ∨ fc = tc ∨ (tr - fr).natAbs = (tc - fc).natAbs)
    (hne : ¬(fr = tr ∧ fc = tc))
    (h1 : (tr - fr).natAbs ≤ 7) (h2 : (tc - fc).natAbs ≤ 7) :
    isPathClear b fr fc tr tc =
      some ((pathBetween fr fc tr tc).all fun p => (b p.row p.col).isNone) := by
  obtain ⟨hrow, hcol, hd1⟩ := align_data fr fc tr tc hAl hne
  have hstep : ¬(stepDir fr tr = 0 ∧ stepDir fc tc = 0) := by
    rintro ⟨ha, hb⟩
    exact hne ⟨((stepDir_eq_zero_iff fr tr).mp ha).symm,
               ((stepDir_eq_zero_iff fc tc).mp hb).symm⟩
  set d := max (tr - fr).natAbs (tc - fc).natAbs with hdmax
  set sdr := stepDir fr tr with hsdr
  set sdc := stepDir fc tc with hsdc
  have hd7 : d ≤ 7 := hdmax ▸ max_le h1 h2
  have hispc : isPathClear b fr fc tr tc =
      pathLoop b tr tc sdr sdc 8 (fr + sdr) (fc + sdc) := rfl
  have hpb : pathBetween fr fc tr tc =
      stepList sdr sdc (d - 1) (fr + sdr) (fc + sdc) := rfl
  have hc1 : ((d - 1 : Nat) : Int) = (d : Int) - 1 := by omega
  have e1 : tr = (fr + sdr) + ((d - 1 : Nat) : Int) * sdr := by
    rw [hc1, hrow]; ring
  have e2 : tc = (fc + sdc) + ((d - 1 : Nat) : Int) * sdc := by
    rw [hc1, hcol]; ring
  rw [hispc, hpb, e1, e2]
  exact pathLoop_eq b sdr sdc hstep (d - 1) 8 (fr + sdr) (fc + sdc) (by omega)

/-- Every square the clearance loop visits between two aligned in-grid
squares is itself on the grid. -/
theorem pathBetween_in_grid (fr fc tr tc : Int)
    (hAl : fr = tr ∨ fc = tc ∨ (tr - fr).natAbs = (tc - fc).natAbs)
    (hne : ¬(fr = tr ∧ fc = tc))
    (hfr0 : 0 ≤ fr) (hfr7 : fr ≤ 7) (hfc0 : 0 ≤ fc) (hfc7 : fc ≤ 7)
    (htr0 : 0 ≤ tr) (htr7 : tr ≤ 7) (htc0 : 0 ≤ tc) (htc7 : tc ≤ 7) :
    ∀ p ∈ pathBetween fr fc tr tc,
      0 ≤ p.row ∧ p.row ≤ 7 ∧ 0 ≤ p.col ∧ p.col ≤ 7 := by
  obtain ⟨hrow, hcol, hd1⟩ := align_data fr fc tr tc hAl hne
  intro p hp
  rw [show pathBetween fr fc tr tc =
      stepList (stepDir fr tr) (stepDir fc tc)
        (max (tr - fr).natAbs (tc - fc).natAbs - 1)
        (fr + stepDir fr tr) (fc + stepDir fc tc) from rfl,
    mem_stepList] at hp
  obtain ⟨k, hk, hprow, hpcol⟩ := hp
  rcases stepDir_cases fr tr with h | h | h <;>
    rcases stepDir_cases fc tc with h2 | h2 | h2 <;>
    rw [h] at hprow hrow <;> rw [h2] at hpcol hcol <;> omega

theorem list_all_congr {α : Type} (f g : α → Bool) :
    ∀ (l : List α), (∀ x ∈ l, f x = g x) → l.all f = l.all g := by
  intro l
  induction l with
  | nil => intro _; rfl
  | cons a rest ih =>
    intro h
    rw [List.all_cons, List.all_cons, h a (List.mem_cons_self a rest),
      ih fun x hx => h x (List.mem_cons_of_mem a hx)]

/-! Helper lemmas about the notation codec. -/

theorem int_cases8 (i : Int) (h0 : 0 ≤ i) (h7 : i ≤ 7) :
    i = 0 ∨ i = 1 ∨ i = 2 ∨ i = 3 ∨ i = 4 ∨ i = 5 ∨ i = 6 ∨ i = 7 := by
  omega

/-- The codec round trip on one in-range coordinate pair. -/
theorem parse_get_helper (row col : Int) (hr0 : 0 ≤ row) (hr7 : row ≤ 7)
    (hc0 : 0 ≤ col) (hc7 : col ≤ 7) :
    parseSquareNotation (getSquareNotation row col) = some ⟨row, col⟩ := by
  rcases int_cases8 row hr0 hr7 with h | h | h | h | h | h | h | h <;>
    rcases int_cases8 col hc0 hc7 with h2 | h2 | h2 | h2 | h2 | h2 | h2 | h2 <;>
    subst h <;> subst h2 <;> decide

theorem isFileChar_mem (a : Char) (h : isFileChar a = true) : a ∈ filesStr := by
  have h1 : 'a' ≤ a ∧ a ≤ 'h' := by
    simpa [isFileChar, Bool.and_eq_true, decide_eq_true_eq] using h
  have hn1 : 97 ≤ a.toNat := h1.1
  have hn2 : a.toNat ≤ 104 := h1.2
  have hofn : Char.ofNat a.toNat = a := Char.ofNat_toNat a
  interval_cases h : a.toNat <;> rw [← hofn] <;> decide

theorem isRankChar_mem (a : Char) (h : isRankChar a = true) : a ∈ ranksStr := by
  have h1 : '1' ≤ a ∧ a ≤ '8' := by
    simpa [isRankChar, Bool.and_eq_true, decide_eq_true_eq] using h
  have hn1 : 49 ≤ a.toNat := h1.1
  have hn2 : a.toNat ≤ 56 := h1.2
  have hofn : Char.ofNat a.toNat = a := Char.ofNat_toNat a
  interval_cases h : a.toNat <;> rw [← hofn] <;> decide

theorem isFileChar_of_mem (a : Char) (h : a ∈ filesStr) : isFileChar a = true := by
  fin_cases h <;> decide

theorem isRankChar_of_mem (a : Char) (h : a ∈ ranksStr) : isRankChar a = true := by
  fin_cases h <;> decide

theorem indexOfChar_not_mem (c : Char) :
    ∀ (l : List Char), c ∉ l → indexOfChar l c = -1 := by
  intro l
  induction l with
  | nil => intro _; rfl
  | cons x rest ih =>
    intro h
    have hx : ¬x = c := fun he => h (by rw [he]; exact List.mem_cons_self c rest)
    have hr : indexOfChar rest c = -1 := ih fun hm => h (List.mem_cons_of_mem x hm)
    show (if x = c then 0 else
      if indexOfChar rest c = -1 then -1 else indexOfChar rest c + 1) = -1
    rw [if_neg hx, hr]
    simp

theorem indexOfChar_mem_bounds (c : Char) :
    ∀ (l : List Char), c ∈ l →
      0 ≤ indexOfChar l c ∧ indexOfChar l c < (l.length : Int) := by
  intro l
  induction l with
  | nil => intro h; cases h
  | cons x rest ih =>
    intro h
    show 0 ≤ (if x = c then 0 else
        if indexOfChar rest c = -1 then -1 else indexOfChar rest c + 1) ∧
      (if x = c then 0 else
        if indexOfChar rest c = -1 then -1 else indexOfChar rest c + 1) <
        ((x :: rest).length : Int)
    by_cases hx : x = c
    · rw [if_pos hx]
      refine ⟨le_refl 0, ?_⟩
      have hpos : 0 < (x :: rest).length := Nat.succ_pos rest.length
      exact_mod_cast hpos
    · have hm : c ∈ rest := by
        rcases List.mem_cons.mp h with he | hm
        · exact absurd he.symm hx
        · exact hm
      obtain ⟨ih1, ih2⟩ := ih hm
      have hz : ¬indexOfChar rest c = -1 := by omega
      rw [if_neg hx, if_neg hz]
      simp only [List.length_cons]
      push_cast
      omega

/-- Parsing a two-character token drawn from the regex alphabets yields an
in-range coordinate pair. -/
theorem parse_fileRank (a c : Char) (ha : isFileChar a = true)
    (hc : isRankChar c = true) :
    ∃ p : Pos, parseSquareNotation [a, c] = some p ∧
      0 ≤ p.row ∧ p.row ≤ 7 ∧ 0 ≤ p.col ∧ p.col ≤ 7 := by
  obtain ⟨ha0, ha8⟩ := indexOfChar_mem_bounds a filesStr (isFileChar_mem a ha)
  obtain ⟨hc0, hc8⟩ := indexOfChar_mem_bounds c ranksStr (isRankChar_mem c hc)
  have hlf : ((filesStr.length : Nat) : Int) = 8 := by decide
  have hlr : ((ranksStr.length : Nat) : Int) = 8 := by decide
  rw [hlf] at ha8
  rw [hlr] at hc8
  have h7a : indexOfChar filesStr a ≤ 7 := by omega
  have h7c : indexOfChar ranksStr c ≤ 7 := by omega
  have hparse : parseSquareNotation [a, c] =
      some ⟨indexOfChar ranksStr c, indexOfChar filesStr a⟩ := by
    show (if indexOfChar filesStr a = -1 ∨ indexOfChar ranksStr c = -1 then
        (some ⟨-1, -1⟩ : Option Pos)
      else some ⟨indexOfChar ranksStr c, indexOfChar filesStr a⟩) =
      some ⟨indexOfChar ranksStr c, indexOfChar filesStr a⟩
    rw [if_neg]
    push_neg
    constructor <;> omega
  exact ⟨⟨indexOfChar ranksStr c, indexOfChar filesStr a⟩, hparse,
    hc0, h7c, ha0, h7a⟩

/-- Parsing a two-character token with a character outside the alphabets
yields the sentinel pair. -/
theorem parse_badchar (a c : Char)
    (h : ¬(isFileChar a = true ∧ isRankChar c = true)) :
    parseSquareNotation [a, c] = some ⟨-1, -1⟩ := by
  show (if indexOfChar filesStr a = -1 ∨ indexOfChar ranksStr c = -1 then
      (some ⟨-1, -1⟩ : Option Pos)
    else some ⟨indexOfChar ranksStr c, indexOfChar filesStr a⟩) =
    some ⟨-1, -1⟩
  rw [if_pos]
  rcases not_and_or.mp h with h | h
  · left
    exact indexOfChar_not_mem a filesStr fun hm =>
      h (isFileChar_of_mem a hm)
  · right
    exact indexOfChar_not_mem c ranksStr fun hm =>
      h (isRankChar_of_mem c hm)

/-! Helper lemmas about the legality engine. -/

/-- An accepted move has its destination on the grid and differs from its
origin. -/
theorem isValidMove_true_basic (b : Board) (player : Color) (fr fc tr tc : Int)
    (h : isValidMove b player fr fc tr tc = some true) :
    (0 ≤ tr ∧ tr ≤ 7 ∧ 0 ≤ tc ∧ tc ≤ 7) ∧ ¬(fr = tr ∧ fc = tc) := by
  unfold isValidMove at h
  by_cases hg : tr < 0 ∨ tr > 7 ∨ tc < 0 ∨ tc > 7
  · rw [if_pos hg] at h
    simp at h
  · rw [if_neg hg] at h
    by_cases he : fr = tr ∧ fc = tc
    · rw [if_pos he] at h
      simp at h
    · push_neg at hg
      exact ⟨⟨by omega, by omega, by omega, by omega⟩, he⟩

/-- An accepted move starts from a piece of the current player and passes
the per-kind geometry rule. -/
theorem isValidMove_true_piece (b : Board) (player : Color) (fr fc tr tc : Int)
    (piece : ChessPiece) (hb : b fr fc = some piece)
    (h : isValidMove b player fr fc tr tc = some true) :
    piece.color = player ∧
    (match piece.type with
     | .pawn => some (isValidPawnMove b fr fc tr tc piece)
     | .rook => isValidRookMove b fr fc tr tc
     | .bishop => isValidBishopMove b fr fc tr tc
     | .knight => some (isValidKnightMove fr fc tr tc)
     | .queen => isValidQueenMove b fr fc tr tc
     | .king => some (isValidKingMove fr fc tr tc)) = some true := by
  unfold isValidMove at h
  by_cases hg : tr < 0 ∨ tr > 7 ∨ tc < 0 ∨ tc > 7
  · rw [if_pos hg] at h
    simp at h
  · rw [if_neg hg] at h
    by_cases he : fr = tr ∧ fc = tc
    · rw [if_pos he] at h
      simp at h
    · rw [if_neg he, hb] at h
      dsimp only at h
      by_cases hcp : piece.color ≠ player
      · rw [if_pos hcp] at h
        simp at h
      · rw [if_neg hcp] at h
        push_neg at hcp
        by_cases hsc : (match b tr tc with
            | some t => t.color == piece.color
            | none => false) = true
        · rw [if_pos hsc] at h
          simp at h
        · rw [if_neg hsc] at h
          exact ⟨hcp, h⟩

/-! The claims. -/

/-- C1: for every accepted move (the click path and the voice path both
call executeMove exactly when isValidMove accepts, and the emitted record
flows into handleMove), the current player after the move is the flip of
the one before (so it differs from it), exactly one move record is
appended to the history, the origin square is empty afterwards, and the
destination holds the piece that previously stood on the origin. -/
theorem acceptedMove_flip_append_relocate (st : GameState) (fr fc tr tc : Int)
    (hacc : isValidMove st.board st.currentPlayer fr fc tr tc = some true) :
    (applyAcceptedMove st fr fc tr tc).currentPlayer = st.currentPlayer.flip ∧
    (applyAcceptedMove st fr fc tr tc).currentPlayer ≠ st.currentPlayer ∧
    (applyAcceptedMove st fr fc tr tc).moveHistory =
      st.moveHistory ++ [(executeMove st.board fr fc tr tc).2] ∧
    (applyAcceptedMove st fr fc tr tc).moveHistory.length =
      st.moveHistory.length + 1 ∧
    (applyAcceptedMove st fr fc tr tc).board fr fc = none ∧
    (applyAcceptedMove st fr fc tr tc).board tr tc = st.board fr fc := by
  have hne := (isValidMove_true_basic _ _ _ _ _ _ hacc).2
  refine ⟨rfl, ?_, rfl, ?_, ?_, ?_⟩
  · show st.currentPlayer.flip ≠ st.currentPlayer
    cases st.currentPlayer <;> decide
  · show (st.moveHistory ++ [(executeMove st.board fr fc tr tc).2]).length =
      st.moveHistory.length + 1
    simp
  · show setSq (setSq st.board tr tc (st.board fr fc)) fr fc none fr fc = none
    unfold setSq
    rw [if_pos ⟨rfl, rfl⟩]
  · show setSq (setSq st.board tr tc (st.board fr fc)) fr fc none tr tc =
      st.board fr fc
    unfold setSq
    rw [if_neg, if_pos ⟨rfl, rfl⟩]
    rintro ⟨h1, h2⟩
    exact hne ⟨h1.symm, h2.symm⟩

/-- C1 witness: the accepted move e2-e4 from the initial game state. -/
theorem acceptedMove_flip_append_relocate_witness :
    (applyAcceptedMove initGameState 6 4 4 4).currentPlayer =
      initGameState.currentPlayer.flip ∧
    (applyAcceptedMove initGameState 6 4 4 4).currentPlayer ≠
      initGameState.currentPlayer ∧
    (applyAcceptedMove initGameState 6 4 4 4).moveHistory =
      initGameState.moveHistory ++
        [(executeMove initGameState.board 6 4 4 4).2] ∧
    (applyAcceptedMove initGameState 6 4 4 4).moveHistory.length =
      initGameState.moveHistory.length + 1 ∧
    (applyAcceptedMove initGameState 6 4 4 4).board 6 4 = none ∧
    (applyAcceptedMove initGameState 6 4 4 4).board 4 4 =
      initGameState.board 6 4 :=
  acceptedMove_flip_append_relocate initGameState 6 4 4 4 (by decide)

/-- C2: for every row and column in [0,7], parsing the algebraic name
produced for that square returns the same pair. -/
theorem notation_roundtrip (row col : Int) (hr0 : 0 ≤ row) (hr7 : row ≤ 7)
    (hc0 : 0 ≤ col) (hc7 : col ≤ 7) :
    parseSquareNotation (getSquareNotation row col) = some ⟨row, col⟩ :=
  parse_get_helper row col hr0 hr7 hc0 hc7

/-- C2 witness: the round trip at (6, 4), the square e2. -/
theorem notation_roundtrip_witness :
    parseSquareNotation (getSquareNotation 6 4) = some ⟨6, 4⟩ :=
  notation_roundtrip 6 4 (by decide) (by decide) (by decide) (by decide)

/-- C3 counterexample: the string z9 has length 2 and its file character
is outside a..h, so the claim says the parse fails, yet the parser returns
a coordinate pair (the sentinel { row := -1, col := -1 }), not none. -/
theorem parse_malformed_cex :
    (['z', '9'] : List Char).length = 2 ∧ isFileChar 'z' = false ∧
    parseSquareNotation ['z', '9'] = some ⟨-1, -1⟩ ∧
    parseSquareNotation ['z', '9'] ≠ none := by
  refine ⟨by decide, by decide, by decide, ?_⟩
  intro h
  rw [show parseSquareNotation ['z', '9'] = some ⟨-1, -1⟩ from by decide] at h
  cases h

/-- C3 (amended): the parser returns none exactly when the input length is
not 2; a two-character input with a file or rank character outside the
a..h / 1..8 alphabets yields the out-of-range sentinel pair (-1, -1)
rather than failing, and a two-character input with both characters in
the alphabets yields an in-range pair. -/
theorem parse_failure_spec (s : List Char) :
    (parseSquareNotation s = none ↔ s.length ≠ 2) ∧
    (∀ a c, s = [a, c] →
      (¬(isFileChar a = true ∧ isRankChar c = true) →
        parseSquareNotation s = some ⟨-1, -1⟩) ∧
      ((isFileChar a = true ∧ isRankChar c = true) →
        ∃ p : Pos, parseSquareNotation s = some p ∧
          0 ≤ p.row ∧ p.row ≤ 7 ∧ 0 ≤ p.col ∧ p.col ≤ 7)) := by
  constructor
  · match s with
    | [] => simp [parseSquareNotation]
    | [a] => simp [parseSquareNotation]
    | [a, c] =>
      constructor
      · intro h
        exfalso
        revert h
        show (if indexOfChar filesStr a = -1 ∨ indexOfChar ranksStr c = -1 then
            (some ⟨-1, -1⟩ : Option Pos)
          else some ⟨indexOfChar ranksStr c, indexOfChar filesStr a⟩) =
            none → False
        split_ifs <;> intro h <;> cases h
      · intro h
        simp at h
    | a :: c :: d :: rest => simp [parseSquareNotation]
  · rintro a c rfl
    exact ⟨fun h => parse_badchar a c h, fun h => parse_fileRank a c h.1 h.2⟩

/-- C3 witness: the amended behaviour at the concrete input z9. -/
theorem parse_failure_spec_witness :
    parseSquareNotation ['z', '9'] = some ⟨-1, -1⟩ :=
  ((parse_failure_spec ['z', '9']).2 'z' '9' rfl).1 (by decide)

/-- C6: with the origin inside the grid, isValidMove returns false whenever
the destination is off the grid, origin equals destination, the origin is
empty, the origin piece is not the current player's, or the destination
holds a piece of the mover's own color. -/
theorem isValidMove_rejects (b : Board) (player : Color) (fr fc tr tc : Int)
    (hf0 : 0 ≤ fr) (hf7 : fr ≤ 7) (hc0 : 0 ≤ fc) (hc7 : fc ≤ 7)
    (h : (tr < 0 ∨ 7 < tr ∨ tc < 0 ∨ 7 < tc) ∨ (fr = tr ∧ fc = tc) ∨
      b fr fc = none ∨ (∃ p, b fr fc = some p ∧ p.color ≠ player) ∨
      (∃ p q, b fr fc = some p ∧ b tr tc = some q ∧ q.color = p.color)) :
    isValidMove b player fr fc tr tc = some false := by
  unfold isValidMove
  by_cases hg : tr < 0 ∨ tr > 7 ∨ tc < 0 ∨ tc > 7
  · rw [if_pos hg]
  · rw [if_neg hg]
    by_cases he : fr = tr ∧ fc = tc
    · rw [if_pos he]
    · rw [if_neg he]
      rcases h with h | h | h | ⟨p, hp, hcol⟩ | ⟨p, q, hp, hq, hcol⟩
      · exact absurd (by omega : tr < 0 ∨ tr > 7 ∨ tc < 0 ∨ tc > 7) hg
      · exact absurd h he
      · rw [h]
      · rw [hp]
        dsimp only
        rw [if_pos hcol]
      · rw [hp]
        dsimp only
        by_cases hcp : p.color ≠ player
        · rw [if_pos hcp]
        · rw [if_neg hcp]
          have hm : (match b tr tc with
              | some t => t.color == p.color
              | none => false) = true := by
            rw [hq]
            simp [hcol]
          rw [if_pos hm]

/-- C6 witness: from the initial position with white to move, the
degenerate candidate with origin equal to destination is rejected. -/
theorem isValidMove_rejects_witness :
    isValidMove initialBoard .white 6 4 6 4 = some false :=
  isValidMove_rejects initialBoard .white 6 4 6 4 (by decide) (by decide)
    (by decide) (by decide) (Or.inr (Or.inl ⟨rfl, rfl⟩))

/-- C5: for every board and pawn, a move two rows forward for the pawn's
color is accepted by isValidPawnMove exactly when the destination is in
the same column, the pawn stands on its color's starting row (6 for
white, 1 for black), and both the intermediate square and the destination
square are empty. -/
theorem pawn_double_advance_iff (b : Board) (fr fc tr tc : Int)
    (piece : ChessPiece) (hk : piece.type = .pawn)
    (hshape : tr = fr + 2 * pawnDirection piece.color) :
    isValidPawnMove b fr fc tr tc piece = true ↔
      tc = fc ∧ fr = pawnStartRow piece.color ∧
        b (fr + pawnDirection piece.color) fc = none ∧ b tr tc = none := by
  have hd : pawnDirection piece.color = -1 ∨ pawnDirection piece.color = 1 := by
    unfold pawnDirection
    split_ifs <;> simp
  show (if fc = tc then
      if tr = fr + pawnDirection piece.color ∧ b tr tc = none then true
      else if fr = pawnStartRow piece.color ∧
          tr = fr + 2 * pawnDirection piece.color ∧
          b tr tc = none ∧ b (fr + pawnDirection piece.color) fc = none then true
      else false
    else if (fc - tc).natAbs = 1 ∧ tr = fr + pawnDirection piece.color then
      match b tr tc with
      | some t => decide (t.color ≠ piece.color)
      | none => false
    else false) = true ↔ _
  by_cases htc : fc = tc
  · rw [if_pos htc]
    have hfirst : ¬(tr = fr + pawnDirection piece.color ∧ b tr tc = none) := by
      rintro ⟨h1, _⟩
      rcases hd with h | h <;> omega
    rw [if_neg hfirst]
    by_cases h2 : fr = pawnStartRow piece.color ∧
        tr = fr + 2 * pawnDirection piece.color ∧
        b tr tc = none ∧ b (fr + pawnDirection piece.color) fc = none
    · rw [if_pos h2]
      exact iff_of_true rfl ⟨htc.symm, h2.1, h2.2.2.2, h2.2.2.1⟩
    · rw [if_neg h2]
      exact iff_of_false (by simp) fun hr =>
        h2 ⟨hr.2.1, hshape, hr.2.2.2, hr.2.2.1⟩
  · rw [if_neg htc]
    have hsec : ¬((fc - tc).natAbs = 1 ∧ tr = fr + pawnDirection piece.color) := by
      rintro ⟨_, h1⟩
      rcases hd with h | h <;> omega
    rw [if_neg hsec]
    exact iff_of_false (by simp) fun hr => htc hr.1.symm

/-- C5 witness: the double advance e2-e4 from the initial position, with
both e3 and e4 empty. -/
theorem pawn_double_advance_iff_witness :
    isValidPawnMove initialBoard 6 4 4 4 ⟨.pawn, .white, '♙'⟩ = true :=
  (pawn_double_advance_iff initialBoard 6 4 4 4 ⟨.pawn, .white, '♙'⟩ rfl
    (by decide)).mpr ⟨rfl, by decide, by decide, by decide⟩

/-- From an accepted isPathClear on an aligned in-range pair, every square
strictly between origin and destination is empty. -/
theorem between_empty_of_pathClear (b : Board) (fr fc tr tc : Int)
    (hAl : fr = tr ∨ fc = tc ∨ (tr - fr).natAbs = (tc - fc).natAbs)
    (hne : ¬(fr = tr ∧ fc = tc))
    (h1 : (tr - fr).natAbs ≤ 7) (h2 : (tc - fc).natAbs ≤ 7)
    (hpc : isPathClear b fr fc tr tc = some true) :
    ∀ p ∈ pathBetween fr fc tr tc, b p.row p.col = none := by
  have he := isPathClear_eq_between b fr fc tr tc hAl hne h1 h2
  rw [hpc] at he
  have hall : (pathBetween fr fc tr tc).all
      (fun p => (b p.row p.col).isNone) = true :=
    ((Option.some.injEq _ _).mp he).symm
  intro p hp
  exact Option.isNone_iff_eq_none.mp (List.all_eq_true.mp hall p hp)

/-- An accepted rook or bishop geometry check means the pair is aligned
and the path-clearance loop accepted. -/
theorem slider_geometry (b : Board) (fr fc tr tc : Int)
    (h : isValidRookMove b fr fc tr tc = some true ∨
      isValidBishopMove b fr fc tr tc = some true) :
    (fr = tr ∨ fc = tc ∨ (tr - fr).natAbs = (tc - fc).natAbs) ∧
      isPathClear b fr fc tr tc = some true := by
  rcases h with h | h
  · unfold isValidRookMove at h
    by_cases hg : fr ≠ tr ∧ fc ≠ tc
    · rw [if_pos hg] at h
      simp at h
    · rw [if_neg hg] at h
      rcases not_and_or.mp hg with hg | hg
      · exact ⟨Or.inl (not_not.mp hg), h⟩
      · exact ⟨Or.inr (Or.inl (not_not.mp hg)), h⟩
  · unfold isValidBishopMove at h
    by_cases hg : (fr - tr).natAbs ≠ (fc - tc).natAbs
    · rw [if_pos hg] at h
      simp at h
    · rw [if_neg hg] at h
      refine ⟨Or.inr (Or.inr ?_), h⟩
      have hq := not_not.mp hg
      omega

/-- An accepted queen geometry check reduces to the rook or the bishop
case. -/
theorem queen_geometry (b : Board) (fr fc tr tc : Int)
    (h : isValidQueenMove b fr fc tr tc = some true) :
    (fr = tr ∨ fc = tc ∨ (tr - fr).natAbs = (tc - fc).natAbs) ∧
      isPathClear b fr fc tr tc = some true := by
  unfold isValidQueenMove at h
  cases hr : isValidRookMove b fr fc tr tc with
  | none =>
    rw [hr] at h
    simp at h
  | some v =>
    rw [hr] at h
    cases v
    · dsimp only at h
      exact slider_geometry b fr fc tr tc (Or.inr h)
    · exact slider_geometry b fr fc tr tc (Or.inl hr)

/-- C4: a rook, bishop, or queen move is accepted only with every square
strictly between origin and destination empty; on the initial position the
accepted moves for white are exactly the 20 opening moves (16 pawn single
and double advances plus 4 knight moves), and the sliding move rook
a1 to a3 (rows 7 to 5, column 0), which would jump the a2 pawn, is
rejected. -/
theorem sliding_clear_and_opening_moves :
    (∀ (b : Board) (player : Color) (fr fc tr tc : Int) (piece : ChessPiece),
      0 ≤ fr → fr ≤ 7 → 0 ≤ fc → fc ≤ 7 →
      b fr fc = some piece →
      (piece.type = .rook ∨ piece.type = .bishop ∨ piece.type = .queen) →
      isValidMove b player fr fc tr tc = some true →
      ∀ p ∈ pathBetween fr fc tr tc, b p.row p.col = none) ∧
    legalMovesList initialBoard .white = openingMoves20 ∧
    openingMoves20.length = 20 ∧
    isValidMove initialBoard .white 7 0 5 0 = some false := by
  refine ⟨?_, by decide, by decide, by decide⟩
  intro b player fr fc tr tc piece hf0 hf7 hc0 hc7 hb hkind hv
  obtain ⟨⟨ht0, ht7, hu0, hu7⟩, hne⟩ := isValidMove_true_basic _ _ _ _ _ _ hv
  obtain ⟨hcol, hgeo⟩ := isValidMove_true_piece _ _ _ _ _ _ piece hb hv
  have hslide : (fr = tr ∨ fc = tc ∨ (tr - fr).natAbs = (tc - fc).natAbs) ∧
      isPathClear b fr fc tr tc = some true := by
    rcases hkind with hk | hk | hk <;> rw [hk] at hgeo <;> dsimp only at hgeo
    · exact slider_geometry b fr fc tr tc (Or.inl hgeo)
    · exact slider_geometry b fr fc tr tc (Or.inr hgeo)
    · exact queen_geometry b fr fc tr tc hgeo
  exact between_empty_of_pathClear b fr fc tr tc hslide.1 hne
    (by omega) (by omega) hslide.2

/-- C4 witness: the accepted rook move a1 to a3 on a board with a lone
white rook has an empty strictly-between path. -/
theorem sliding_clear_and_opening_moves_witness :
    ∀ p ∈ pathBetween 7 0 5 0, rookTestBoard p.row p.col = none :=
  sliding_clear_and_opening_moves.1 rookTestBoard .white 7 0 5 0
    ⟨.rook, .white, '♖'⟩ (by decide) (by decide) (by decide) (by decide)
    (by decide) (Or.inl rfl) (by decide)

/-! Helper lemmas about the voice resolver. -/

theorem isBareSquare_false_of_noTok (cs : List Char)
    (h : hasSquareTok cs = false) : isBareSquare cs = false := by
  match cs with
  | [] => rfl
  | [a] => rfl
  | [a, b] =>
    have h1 : (isFileChar a && isRankChar b) = false := by
      have := h
      simp only [hasSquareTok, Bool.or_eq_false_iff] at this
      exact this.1
    simp only [isBareSquare, h1]
  | a :: b :: c :: rest => rfl

theorem findMatch_none_of_noTok :
    ∀ (cs : List Char), hasSquareTok cs = false → findMatch cs = none := by
  intro cs
  induction cs with
  | nil => intro _; rfl
  | cons a tail ih =>
    intro h
    cases tail with
    | nil => rfl
    | cons b rest =>
      have h1 : (isFileChar a && isRankChar b) = false ∧
          hasSquareTok (b :: rest) = false := by
        simpa only [hasSquareTok, Bool.or_eq_false_iff] using h
      rw [findMatch]
      simp only [h1.1, Bool.false_eq_true, if_false]
      exact ih h1.2

theorem extractSquares_none_of_noTok (b : Board) (player : Color)
    (cs : List Char) (h : hasSquareTok cs = false) :
    extractSquares b player cs = (none, none) := by
  unfold extractSquares
  simp only [isBareSquare_false_of_noTok cs h, Bool.false_eq_true, if_false,
    findMatch_none_of_noTok cs h]

theorem pvc_none_of_noTok (b : Board) (player : Color) (gs : Bool)
    (cmd : List Char) (h : hasSquareTok (normalizeCmd cmd) = false) :
    processVoiceCommand b player gs cmd = none := by
  unfold processVoiceCommand
  cases gs
  · rfl
  · simp only [if_true]
    rw [extractSquares_none_of_noTok b player (normalizeCmd cmd) h]

/-- C9: a voice utterance whose normalized text holds no two consecutive
characters forming a square token triggers no call to executeMove and
leaves the game state (board, current player, history) unchanged. -/
theorem voice_no_pattern_no_move (st : GameState) (gs : Bool)
    (cmd : List Char) (h : hasSquareTok (normalizeCmd cmd) = false) :
    processVoiceCommand st.board st.currentPlayer gs cmd = none ∧
    voiceStep st gs cmd = st := by
  have hp := pvc_none_of_noTok st.board st.currentPlayer gs cmd h
  refine ⟨hp, ?_⟩
  unfold voiceStep
  rw [hp]

/-- The utterance of the spec example, as a character list. -/
def helloThere : List Char :=
  ['h', 'e', 'l', 'l', 'o', ' ', 't', 'h', 'e', 'r', 'e']

/-- C9 witness: the utterance hello there from the initial state. -/
theorem voice_no_pattern_no_move_witness :
    processVoiceCommand initGameState.board initGameState.currentPlayer true
      helloThere = none ∧
    voiceStep initGameState true helloThere = initGameState :=
  voice_no_pattern_no_move initGameState true helloThere (by decide)

/-- The bare-destination scan is the first row-major square passing the
voice acceptance test. -/
theorem scanFromSquare_eq_find (b : Board) (player : Color) (ts : List Char)
    (tp : Pos) (hts : parseSquareNotation ts = some tp) :
    ∀ (l : List Pos), scanFromSquare b player ts l =
      (l.find? (voicePred b player tp)).map
        fun p => getSquareNotation p.row p.col := by
  intro l
  induction l with
  | nil => rfl
  | cons p rest ih =>
    rw [scanFromSquare]
    cases hb : b p.row p.col with
    | none =>
      have hpred : voicePred b player tp p = false := by
        simp [voicePred, hb]
      rw [List.find?_cons_of_neg _ (by simp [hpred]), ih]
    | some piece =>
      dsimp only
      by_cases hcol : piece.color = player
      · rw [if_pos hcol, hts]
        dsimp only
        by_cases hv : isValidMove b player p.row p.col tp.row tp.col = some true
        · have hpred : voicePred b player tp p = true := by
            simp only [voicePred, hb, hv]
            simp [hcol]
          rw [if_pos hv, List.find?_cons_of_pos _ hpred]
          rfl
        · have hpred : voicePred b player tp p = false := by
            simp only [voicePred, hb]
            cases hval : isValidMove b player p.row p.col tp.row tp.col with
            | none => simp
            | some v =>
              cases v
              · simp
              · exact absurd hval hv
          rw [if_neg hv, List.find?_cons_of_neg _ (by simp [hpred]), ih]
      · have hpred : voicePred b player tp p = false := by
          simp [voicePred, hb, hcol]
        rw [if_neg hcol, List.find?_cons_of_neg _ (by simp [hpred]), ih]

/-- A successful find? splits the list at the first passing element. -/
theorem find_split {α : Type} (f : α → Bool) :
    ∀ (l : List α) (x : α), l.find? f = some x →
      f x = true ∧ ∃ l1 l2, l = l1 ++ x :: l2 ∧ ∀ y ∈ l1, f y = false := by
  intro l
  induction l with
  | nil => intro x h; cases h
  | cons a rest ih =>
    intro x h
    cases hp : f a
    · rw [List.find?_cons_of_neg _ (by simp [hp])] at h
      obtain ⟨hx, l1, l2, hsplit, hall⟩ := ih x h
      refine ⟨hx, a :: l1, l2, by rw [hsplit]; rfl, ?_⟩
      intro y hy
      rcases List.mem_cons.mp hy with hy | hy
      · rw [hy]; exact hp
      · exact hall y hy
    · rw [List.find?_cons_of_pos _ hp] at h
      obtain rfl := (Option.some.injEq _ _).mp h
      exact ⟨hp, [], rest, rfl, by intro y hy; cases hy⟩

/-- Unpacking a voice command that executed a move: squares were extracted,
both parsed, and the legality engine accepted the pair. -/
theorem pvc_some_elim (b : Board) (player : Color) (gs : Bool)
    (cmd : List Char) (fp tp : Pos)
    (h : processVoiceCommand b player gs cmd = some (fp, tp)) :
    ∃ fs ts, extractSquares b player (normalizeCmd cmd) = (some fs, some ts) ∧
      parseSquareNotation fs = some fp ∧ parseSquareNotation ts = some tp ∧
      isValidMove b player fp.row fp.col tp.row tp.col = some true := by
  unfold processVoiceCommand at h
  cases gs
  · cases h
  · simp only [if_true] at h
    rcases he : extractSquares b player (normalizeCmd cmd) with ⟨ofs, ots⟩
    rw [he] at h
    cases ofs with
    | none => cases ots <;> cases h
    | some fs =>
      cases ots with
      | none => cases h
      | some ts =>
        dsimp only at h
        cases hpf : parseSquareNotation fs with
        | none => rw [hpf] at h; cases h
        | some fp0 =>
          cases hpt : parseSquareNotation ts with
          | none => rw [hpf, hpt] at h; cases h
          | some tp0 =>
            rw [hpf, hpt] at h
            dsimp only at h
            by_cases hv : isValidMove b player fp0.row fp0.col tp0.row tp0.col =
                some true
            · rw [if_pos hv] at h
              have hpair := (Option.some.injEq _ _).mp h
              simp only [Prod.mk.injEq] at hpair
              obtain ⟨rfl, rfl⟩ := hpair
              exact ⟨fs, ts, rfl, hpf, hpt, hv⟩
            · rw [if_neg hv] at h
              cases h

/-- The lazy tail search only returns square tokens. -/
theorem findToTok_chars :
    ∀ (cs : List Char) (t : Char × Char), findToTok cs = some t →
      isFileChar t.1 = true ∧ isRankChar t.2 = true := by
  intro cs
  induction cs with
  | nil => intro t h; cases h
  | cons a tail ih =>
    intro t h
    cases tail with
    | nil => cases h
    | cons b rest =>
      rw [findToTok] at h
      by_cases hab : (isFileChar a && isRankChar b) = true
      · rw [if_pos hab] at h
        obtain rfl := (Option.some.injEq _ _).mp h
        simpa [Bool.and_eq_true] using hab
      · rw [if_neg hab] at h
        by_cases hlt : isLineTerm a = true
        · rw [if_pos hlt] at h
          cases h
        · rw [if_neg hlt] at h
          exact ih t h

/-- The pair regex only returns square tokens for both groups. -/
theorem findMatch_chars :
    ∀ (cs : List Char) (m : (Char × Char) × (Char × Char)),
      findMatch cs = some m →
      isFileChar m.1.1 = true ∧ isRankChar m.1.2 = true ∧
      isFileChar m.2.1 = true ∧ isRankChar m.2.2 = true := by
  intro cs
  induction cs with
  | nil => intro m h; cases h
  | cons a tail ih =>
    intro m h
    cases tail with
    | nil => cases h
    | cons b rest =>
      rw [findMatch] at h
      by_cases hab : (isFileChar a && isRankChar b) = true
      · rw [if_pos hab] at h
        cases ht : findToTok rest with
        | none =>
          rw [ht] at h
          exact ih m h
        | some t =>
          rw [ht] at h
          obtain rfl := (Option.some.injEq _ _).mp h
          have hcs := findToTok_chars rest t ht
          have hab2 : isFileChar a = true ∧ isRankChar b = true := by
            simpa [Bool.and_eq_true] using hab
          exact ⟨hab2.1, hab2.2, hcs.1, hcs.2⟩
      · rw [if_neg hab] at h
        exact ih m h

/-- Every square of the row-major scan list lies on the grid. -/
theorem squaresList_in_grid :
    ∀ p ∈ squaresList, 0 ≤ p.row ∧ p.row ≤ 7 ∧ 0 ≤ p.col ∧ p.col ≤ 7 := by
  decide

/-- The bare-destination branch of the extraction phase. -/
theorem extractSquares_bare (b : Board) (player : Color) (trimmed : List Char)
    (h : isBareSquare trimmed = true) :
    extractSquares b player trimmed =
      (scanFromSquare b player trimmed squaresList, some trimmed) := by
  unfold extractSquares
  rw [if_pos h]

/-- A bare-square string is a two-character token of the alphabets. -/
theorem isBareSquare_elim (cs : List Char) (h : isBareSquare cs = true) :
    ∃ a c, cs = [a, c] ∧ isFileChar a = true ∧ isRankChar c = true := by
  match cs with
  | [] => cases h
  | [a] => cases h
  | [a, c] =>
    have h2 : isFileChar a = true ∧ isRankChar c = true := by
      simpa [isBareSquare, Bool.and_eq_true] using h
    exact ⟨a, c, rfl, h2.1, h2.2⟩
  | a :: c :: d :: rest => cases h

/-- The voice command "e4", as a character list. -/
def cmdE4 : List Char := ['e', '4']

/-- C7: when the normalized utterance is a bare square and a move is
executed, the target is the parse of the utterance and the chosen origin
is the first square in row-major order passing the scan test (a piece of
the current player with an accepted move to the target); concretely, "e4"
on the initial position with white to move executes e2 to e4 and appends
exactly one move record. -/
theorem voice_bare_first_match :
    (∀ (b : Board) (player : Color) (cmd : List Char) (fp tp : Pos),
      isBareSquare (normalizeCmd cmd) = true →
      processVoiceCommand b player true cmd = some (fp, tp) →
      parseSquareNotation (normalizeCmd cmd) = some tp ∧
      voicePred b player tp fp = true ∧
      ∃ l1 l2, squaresList = l1 ++ fp :: l2 ∧
        ∀ q ∈ l1, voicePred b player tp q = false) ∧
    processVoiceCommand initialBoard .white true cmdE4 =
      some (⟨6, 4⟩, ⟨4, 4⟩) ∧
    (voiceStep initGameState true cmdE4).moveHistory =
      [{ fromSq := ['e', '2'], toSq := ['e', '4'], piece := "pawn",
         moveNotation := ['e', '2', '-', 'e', '4'] }] ∧
    (voiceStep initGameState true cmdE4).moveHistory.length = 1 := by
  refine ⟨?_, by decide, by decide, by decide⟩
  intro b player cmd fp tp hbare hpvc
  obtain ⟨fs, ts, hext, hpf, hpt, hv⟩ :=
    pvc_some_elim b player true cmd fp tp hpvc
  rw [extractSquares_bare b player (normalizeCmd cmd) hbare] at hext
  have hext2 := Prod.ext_iff.mp hext
  have hscan : scanFromSquare b player (normalizeCmd cmd) squaresList =
      some fs := hext2.1
  have hts : ts = normalizeCmd cmd :=
    ((Option.some.injEq _ _).mp hext2.2).symm
  rw [hts] at hpt
  refine ⟨hpt, ?_⟩
  rw [scanFromSquare_eq_find b player (normalizeCmd cmd) tp hpt squaresList]
    at hscan
  cases hfind : squaresList.find? (voicePred b player tp) with
  | none =>
    rw [hfind] at hscan
    cases hscan
  | some p0 =>
    rw [hfind] at hscan
    have hfs : fs = getSquareNotation p0.row p0.col :=
      ((Option.some.injEq _ _).mp hscan).symm
    obtain ⟨hpred, l1, l2, hsplit, hall⟩ :=
      find_split (voicePred b player tp) squaresList p0 hfind
    have hp0mem : p0 ∈ squaresList := by
      rw [hsplit]
      exact List.mem_append_right l1 (List.mem_cons_self p0 l2)
    obtain ⟨hg0, hg1, hg2, hg3⟩ := squaresList_in_grid p0 hp0mem
    have hback : parseSquareNotation fs = some p0 := by
      rw [hfs]
      exact parse_get_helper p0.row p0.col hg0 hg1 hg2 hg3
    rw [hback] at hpf
    injection hpf with hfp
    subst hfp
    exact ⟨hpred, l1, l2, hsplit, hall⟩

/-- C7 witness: the general first-match property instantiated at the
concrete command "e4" on the initial position. -/
theorem voice_bare_first_match_witness :
    parseSquareNotation (normalizeCmd cmdE4) = some ⟨4, 4⟩ ∧
    voicePred initialBoard .white ⟨4, 4⟩ ⟨6, 4⟩ = true ∧
    ∃ l1 l2, squaresList = l1 ++ (⟨6, 4⟩ : Pos) :: l2 ∧
      ∀ q ∈ l1, voicePred initialBoard .white ⟨4, 4⟩ q = false :=
  voice_bare_first_match.1 initialBoard .white cmdE4 ⟨6, 4⟩ ⟨4, 4⟩
    (by decide) (by decide)

/-- C8: a voice command only ever executes a move whose four coordinates
lie in [0,7] (so executeMove is never called out of range), and any
candidate whose parsed destination is malformed or out of range is
rejected by the legality engine before any board read, hence treated as
no move. -/
theorem voice_out_of_range_safe :
    (∀ (b : Board) (player : Color) (gs : Bool) (cmd : List Char)
      (fp tp : Pos),
      processVoiceCommand b player gs cmd = some (fp, tp) →
      0 ≤ fp.row ∧ fp.row ≤ 7 ∧ 0 ≤ fp.col ∧ fp.col ≤ 7 ∧
      0 ≤ tp.row ∧ tp.row ≤ 7 ∧ 0 ≤ tp.col ∧ tp.col ≤ 7) ∧
    (∀ (b : Board) (player : Color) (fr fc : Int) (p : Pos),
      ¬(0 ≤ p.row ∧ p.row ≤ 7 ∧ 0 ≤ p.col ∧ p.col ≤ 7) →
      isValidMove b player fr fc p.row p.col = some false) := by
  constructor
  · intro b player gs cmd fp tp hpvc
    obtain ⟨fs, ts, hext, hpf, hpt, hv⟩ :=
      pvc_some_elim b player gs cmd fp tp hpvc
    obtain ⟨⟨ht0, ht7, hu0, hu7⟩, -⟩ := isValidMove_true_basic _ _ _ _ _ _ hv
    have hfp : 0 ≤ fp.row ∧ fp.row ≤ 7 ∧ 0 ≤ fp.col ∧ fp.col ≤ 7 := by
      by_cases hbare : isBareSquare (normalizeCmd cmd) = true
      · rw [extractSquares_bare b player (normalizeCmd cmd) hbare] at hext
        have hext2 := Prod.ext_iff.mp hext
        have hts : ts = normalizeCmd cmd :=
          ((Option.some.injEq _ _).mp hext2.2).symm
        rw [hts] at hpt
        have hscan := hext2.1
        rw [scanFromSquare_eq_find b player (normalizeCmd cmd) tp hpt
          squaresList] at hscan
        cases hfind : squaresList.find? (voicePred b player tp) with
        | none =>
          rw [hfind] at hscan
          cases hscan
        | some p0 =>
          rw [hfind] at hscan
          have hfs : fs = getSquareNotation p0.row p0.col :=
            ((Option.some.injEq _ _).mp hscan).symm
          obtain ⟨-, l1, l2, hsplit, -⟩ :=
            find_split (voicePred b player tp) squaresList p0 hfind
          have hp0mem : p0 ∈ squaresList := by
            rw [hsplit]
            exact List.mem_append_right l1 (List.mem_cons_self p0 l2)
          obtain ⟨hg0, hg1, hg2, hg3⟩ := squaresList_in_grid p0 hp0mem
          have hback : parseSquareNotation fs = some p0 := by
            rw [hfs]
            exact parse_get_helper p0.row p0.col hg0 hg1 hg2 hg3
          rw [hback] at hpf
          injection hpf with hfp
          subst hfp
          exact ⟨hg0, hg1, hg2, hg3⟩
      · unfold extractSquares at hext
        rw [if_neg hbare] at hext
        cases hm : findMatch (normalizeCmd cmd) with
        | none =>
          rw [hm] at hext
          cases (Prod.ext_iff.mp hext).1
        | some m =>
          rw [hm] at hext
          have hext2 := Prod.ext_iff.mp hext
          have hfs : fs = [m.1.1, m.1.2] :=
            ((Option.some.injEq _ _).mp hext2.1).symm
          obtain ⟨hcf, hcr, -, -⟩ :=
            findMatch_chars (normalizeCmd cmd) m hm
          obtain ⟨p, hp, hb0, hb1, hb2, hb3⟩ := parse_fileRank m.1.1 m.1.2 hcf hcr
          rw [hfs, hp] at hpf
          injection hpf with hfp
          subst hfp
          exact ⟨hb0, hb1, hb2, hb3⟩
    exact ⟨hfp.1, hfp.2.1, hfp.2.2.1, hfp.2.2.2, ht0, ht7, hu0, hu7⟩
  · intro b player fr fc p h
    unfold isValidMove
    rw [if_pos (by omega)]

/-- C8 witness: both parts at a concrete input: the executed "e4" command
stays in range, and the sentinel target (-1, -1) is rejected. -/
theorem voice_out_of_range_safe_witness :
    (0 ≤ (⟨6, 4⟩ : Pos).row ∧ (⟨6, 4⟩ : Pos).row ≤ 7 ∧
      0 ≤ (⟨6, 4⟩ : Pos).col ∧ (⟨6, 4⟩ : Pos).col ≤ 7 ∧
      0 ≤ (⟨4, 4⟩ : Pos).row ∧ (⟨4, 4⟩ : Pos).row ≤ 7 ∧
      0 ≤ (⟨4, 4⟩ : Pos).col ∧ (⟨4, 4⟩ : Pos).col ≤ 7) ∧
    isValidMove initialBoard .white 6 4 (⟨-1, -1⟩ : Pos).row
      (⟨-1, -1⟩ : Pos).col = some false :=
  ⟨voice_out_of_range_safe.1 initialBoard .white true cmdE4 ⟨6, 4⟩ ⟨4, 4⟩
      (by decide),
   voice_out_of_range_safe.2 initialBoard .white 6 4 ⟨-1, -1⟩ (by decide)⟩

/-- C10: on an aligned pair of distinct in-grid squares, the isPathClear
loop terminates within its (at most seven) steps, reads only the at most
six squares strictly between origin and destination, and every one of
those squares lies on the grid; the result depends on no other square. -/
theorem pathClear_terminates_bounded (b : Board) (fr fc tr tc : Int)
    (hAl : fr = tr ∨ fc = tc ∨ (tr - fr).natAbs = (tc - fc).natAbs)
    (hne : ¬(fr = tr ∧ fc = tc))
    (hf0 : 0 ≤ fr) (hf7 : fr ≤ 7) (hc0 : 0 ≤ fc) (hc7 : fc ≤ 7)
    (ht0 : 0 ≤ tr) (ht7 : tr ≤ 7) (hu0 : 0 ≤ tc) (hu7 : tc ≤ 7) :
    (isPathClear b fr fc tr tc).isSome = true ∧
    (pathBetween fr fc tr tc).length ≤ 6 ∧
    (∀ p ∈ pathBetween fr fc tr tc,
      0 ≤ p.row ∧ p.row ≤ 7 ∧ 0 ≤ p.col ∧ p.col ≤ 7) ∧
    (∀ b2 : Board,
      (∀ p ∈ pathBetween fr fc tr tc, b2 p.row p.col = b p.row p.col) →
      isPathClear b2 fr fc tr tc = isPathClear b fr fc tr tc) := by
  have h1 : (tr - fr).natAbs ≤ 7 := by omega
  have h2 : (tc - fc).natAbs ≤ 7 := by omega
  refine ⟨?_, ?_,
    pathBetween_in_grid fr fc tr tc hAl hne hf0 hf7 hc0 hc7 ht0 ht7 hu0 hu7,
    ?_⟩
  · rw [isPathClear_eq_between b fr fc tr tc hAl hne h1 h2]
    rfl
  · rw [show pathBetween fr fc tr tc =
        stepList (stepDir fr tr) (stepDir fc tc)
          (max (tr - fr).natAbs (tc - fc).natAbs - 1)
          (fr + stepDir fr tr) (fc + stepDir fc tc) from rfl,
      stepList_length]
    omega
  · intro b2 hsame
    rw [isPathClear_eq_between b2 fr fc tr tc hAl hne h1 h2,
      isPathClear_eq_between b fr fc tr tc hAl hne h1 h2]
    congr 1
    apply list_all_congr
    intro p hp
    rw [hsame p hp]

/-- C10 witness: the rook line a1 to a3 on the initial board terminates
with a path of length one. -/
theorem pathClear_terminates_bounded_witness :
    (isPathClear initialBoard 7 0 5 0).isSome = true ∧
    (pathBetween 7 0 5 0).length ≤ 6 :=
  ⟨(pathClear_terminates_bounded initialBoard 7 0 5 0 (Or.inr (Or.inl rfl))
      (by decide) (by decide) (by decide) (by decide) (by decide)
      (by decide) (by decide) (by decide) (by decide)).1,
   (pathClear_terminates_bounded initialBoard 7 0 5 0 (Or.inr (Or.inl rfl))
      (by decide) (by decide) (by decide) (by decide) (by decide)
      (by decide) (by decide) (by decide) (by decide)).2.1⟩

end VoiceChess
